import Mathlib

/-!
Verification of the ASCII cube renderer (`src/cubev1.c`) against its
natural-language specification.

The C program is shallowly embedded here: C `double` arithmetic is modelled
by real numbers, C `int` by `ℤ`, the four parallel framebuffer arrays by
functions `ℤ → Color` / `ℤ → ℝ`, and the fallible projection by `Option`.
Definitions follow the source function by function and keep its names.
-/

open scoped Classical

namespace CubeRender

/-- 8-bit RGB colour (`typedef struct { uint8_t r, g, b; } Color;`).
Channels are modelled as naturals; no claim exercises channel overflow. -/
structure Color where
  r : ℕ
  g : ℕ
  b : ℕ
deriving DecidableEq, Repr

/-- `typedef struct { double x, y, z; } Vec3;` with `double` modelled as `ℝ`. -/
@[ext] structure Vec3 where
  x : ℝ
  y : ℝ
  z : ℝ

/-- `static inline Vec3 add(Vec3 a, Vec3 b)` -/
def add (a b : Vec3) : Vec3 := ⟨a.x + b.x, a.y + b.y, a.z + b.z⟩

/-- `static inline Vec3 sub(Vec3 a, Vec3 b)` -/
def sub (a b : Vec3) : Vec3 := ⟨a.x - b.x, a.y - b.y, a.z - b.z⟩

/-- `static inline Vec3 scale(Vec3 v, double s)` -/
def scale (v : Vec3) (s : ℝ) : Vec3 := ⟨v.x * s, v.y * s, v.z * s⟩

/-- `static inline double dot(Vec3 a, Vec3 b)` -/
def dot (a b : Vec3) : ℝ := a.x * b.x + a.y * b.y + a.z * b.z

/-- `static inline Vec3 cross(Vec3 a, Vec3 b)` -/
def cross (a b : Vec3) : Vec3 :=
  ⟨a.y * b.z - a.z * b.y, a.z * b.x - a.x * b.z, a.x * b.y - a.y * b.x⟩

/-- `static inline double length(Vec3 v) { return sqrt(dot(v, v)); }` -/
noncomputable def length (v : Vec3) : ℝ := Real.sqrt (dot v v)

/-- `static inline Vec3 normalize(Vec3 v)`: divides by the length when it
exceeds `1e-8`, otherwise returns the zero vector. -/
noncomputable def normalize (v : Vec3) : Vec3 :=
  if 1e-8 < length v then scale v (1 / length v) else ⟨0, 0, 0⟩

/-- `rot_x_apply`: rotation about the x axis by angle `a`. -/
noncomputable def rot_x_apply (v : Vec3) (a : ℝ) : Vec3 :=
  ⟨v.x, v.y * Real.cos a - v.z * Real.sin a, v.y * Real.sin a + v.z * Real.cos a⟩

/-- `rot_y_apply`: rotation about the y axis by angle `a`. -/
noncomputable def rot_y_apply (v : Vec3) (a : ℝ) : Vec3 :=
  ⟨v.x * Real.cos a + v.z * Real.sin a, v.y, -v.x * Real.sin a + v.z * Real.cos a⟩

/-- `rot_z_apply`: rotation about the z axis by angle `a`. -/
noncomputable def rot_z_apply (v : Vec3) (a : ℝ) : Vec3 :=
  ⟨v.x * Real.cos a - v.y * Real.sin a, v.x * Real.sin a + v.y * Real.cos a, v.z⟩

/-- `static inline Color shade(Color c, double brightness)`: clamps the
brightness to `[0,1]` and scales each channel, truncating toward zero
(the C `(uint8_t)` cast of a non-negative value). -/
noncomputable def shade (c : Color) (brightness : ℝ) : Color :=
  let br := if brightness < 0 then 0 else if 1 < brightness then 1 else brightness
  ⟨(⌊(c.r : ℝ) * br⌋).toNat, (⌊(c.g : ℝ) * br⌋).toNat, (⌊(c.b : ℝ) * br⌋).toNat⟩

/-- The dual-depth framebuffer (`Buffer`): four parallel arrays indexed by
`y * width + x`, modelled as total functions on `ℤ`. -/
structure Buffer where
  width : ℤ
  height : ℤ
  top_color : ℤ → Color
  bot_color : ℤ → Color
  top_depth : ℤ → ℝ
  bot_depth : ℤ → ℝ

/-- `put_pixel(int x, int y, int is_top, Color col, double depth)`:
silently drops out-of-bounds writes; the top slot overwrites only on
`depth > top_depth[idx]`, the bottom slot on `depth > bot_depth[idx] - 0.01`. -/
noncomputable def put_pixel (b : Buffer) (x y : ℤ) (is_top : Bool) (col : Color)
    (depth : ℝ) : Buffer :=
  if x < 0 ∨ b.width ≤ x ∨ y < 0 ∨ b.height ≤ y then b
  else
    let idx := y * b.width + x
    if is_top then
      if b.top_depth idx < depth then
        { b with
          top_color := fun i => if i = idx then col else b.top_color i
          top_depth := fun i => if i = idx then depth else b.top_depth i }
      else b
    else
      if b.bot_depth idx - 0.01 < depth then
        { b with
          bot_color := fun i => if i = idx then col else b.bot_color i
          bot_depth := fun i => if i = idx then depth else b.bot_depth i }
      else b

/-- `project(Vec3 p, double *x, double *y, double *z)`: rejects when
`p.z >= -0.5 || p.z <= -100.0`, otherwise returns the screen sub-pixel
coordinates and the camera-space depth.  The globals `buf` and `zoom` are
passed explicitly. -/
noncomputable def project (b : Buffer) (zoom : ℝ) (p : Vec3) : Option (ℝ × ℝ × ℝ) :=
  if -0.5 ≤ p.z ∨ p.z ≤ -100.0 then none
  else
    let focal : ℝ := 5.0
    let factor := -focal / p.z
    let pixel_h : ℝ := (b.height : ℝ) * 2.0
    let min_dim := if (b.width : ℝ) < pixel_h then (b.width : ℝ) else pixel_h
    let scl := min_dim * 0.38 * zoom
    some (p.x * factor * scl + (b.width : ℝ) * 0.5,
          -p.y * factor * scl + pixel_h * 0.5,
          p.z)

/-- The animated key light of `calc_light`: direction of `light1` before
normalisation, as a function of the global elapsed time. -/
noncomputable def light1_raw (time_global : ℝ) : Vec3 :=
  ⟨Real.sin (time_global * 0.7) * 10, Real.cos (time_global * 0.4) * 8 + 10, -5⟩

/-- `light1` in `calc_light`: the normalised animated key light. -/
noncomputable def light1 (time_global : ℝ) : Vec3 := normalize (light1_raw time_global)

/-- `light2` in `calc_light`: the fixed fill light. -/
noncomputable def light2 : Vec3 := normalize ⟨-6, -4, -8⟩

/-- `view_dir` in `calc_light`. -/
def view_dir : Vec3 := ⟨0, 0, -1⟩

/-- The un-clamped sum `ambient + diff1 + diff2 + spec` of `calc_light`.
`pow(x, 100.0)` on the non-negative base `fmax(0, ·)` is `x ^ 100`. -/
noncomputable def calc_light_sum (time_global : ℝ) (normal : Vec3) : ℝ :=
  let ambient : ℝ := 0.15
  let diff1 := max 0 (dot normal (light1 time_global)) * 0.8
  let diff2 := max 0 (dot normal light2) * 0.15
  let halfway := normalize (add (light1 time_global) view_dir)
  let spec := max 0 (dot normal halfway) ^ (100 : ℕ) * 0.55
  ambient + diff1 + diff2 + spec

/-- `calc_light(Vec3 normal)`: the summed lighting terms clamped above at `1.0`
(`fmin(..., 1.0)`). -/
noncomputable def calc_light (time_global : ℝ) (normal : Vec3) : ℝ :=
  min (calc_light_sum time_global normal) 1.0

/-- `static const Vec3 CUBE_VERTS[8]` (the `_` arm is index 7; a `Fin 8`
index never exceeds it). -/
def CUBE_VERTS (i : Fin 8) : Vec3 :=
  match i.val with
  | 0 => ⟨-1, -1, -1⟩
  | 1 => ⟨1, -1, -1⟩
  | 2 => ⟨1, 1, -1⟩
  | 3 => ⟨-1, 1, -1⟩
  | 4 => ⟨-1, -1, 1⟩
  | 5 => ⟨1, -1, 1⟩
  | 6 => ⟨1, 1, 1⟩
  | _ => ⟨-1, 1, 1⟩

/-- `static const int CUBE_FACES[6][4]` (the `_` arm is face index 5). -/
def CUBE_FACES (i : Fin 6) : Fin 4 → Fin 8 :=
  match i.val with
  | 0 => ![0, 1, 2, 3]
  | 1 => ![5, 4, 7, 6]
  | 2 => ![4, 0, 3, 7]
  | 3 => ![1, 5, 6, 2]
  | 4 => ![3, 2, 6, 7]
  | _ => ![4, 5, 1, 0]

/-- The fixed `int edges[12][2]` table of `render_cube` (the `_` arm is edge
index 11). -/
def EDGES (e : Fin 12) : Fin 8 × Fin 8 :=
  match e.val with
  | 0 => (0, 1)
  | 1 => (1, 2)
  | 2 => (2, 3)
  | 3 => (3, 0)
  | 4 => (4, 5)
  | 5 => (5, 6)
  | 6 => (6, 7)
  | 7 => (7, 4)
  | 8 => (0, 4)
  | 9 => (1, 5)
  | 10 => (2, 6)
  | _ => (3, 7)

/-- The vertex transform at the top of `render_cube`: scale by `size = 1.0`,
rotate about X then Y then Z by the current angles, then translate
`v.z -= 5.0`. -/
noncomputable def transform_verts (rx ry rz : ℝ) (i : Fin 8) : Vec3 :=
  let v := scale (CUBE_VERTS i) 1.0
  let v1 := rot_x_apply v rx
  let v2 := rot_y_apply v1 ry
  let v3 := rot_z_apply v2 rz
  ⟨v3.x, v3.y, v3.z - 5.0⟩

/-- The transformed vertex set at the canonical orientation of the claim:
all three rotation angles zero. -/
noncomputable def canonical_verts : Fin 8 → Vec3 := transform_verts 0 0 0

/-- `cross(edge1, edge2)` of `render_cube`: the un-normalised face normal
from the first three vertices of the face, in declared winding order. -/
noncomputable def face_raw_normal (verts : Fin 8 → Vec3) (i : Fin 6) : Vec3 :=
  cross (sub (verts (CUBE_FACES i 1)) (verts (CUBE_FACES i 0)))
        (sub (verts (CUBE_FACES i 2)) (verts (CUBE_FACES i 0)))

/-- `normal` in `render_cube`. -/
noncomputable def face_normal (verts : Fin 8 → Vec3) (i : Fin 6) : Vec3 :=
  normalize (face_raw_normal verts i)

/-- `center` in `render_cube`: the mean of the face's four vertices. -/
noncomputable def face_center (verts : Fin 8 → Vec3) (i : Fin 6) : Vec3 :=
  scale (add (add (add (verts (CUBE_FACES i 0)) (verts (CUBE_FACES i 1)))
    (verts (CUBE_FACES i 2))) (verts (CUBE_FACES i 3))) 0.25

/-- The backface-culling test of `render_cube`: the face is retained iff
`dot(normal, to_cam) > 0` where `to_cam = normalize(scale(center, -1.0))`. -/
def face_visible (verts : Fin 8 → Vec3) (i : Fin 6) : Prop :=
  0 < dot (face_normal verts i) (normalize (scale (face_center verts i) (-1.0)))

/-- The visible-face list `faces[0..num_vis)` of `render_cube` (face order is
preserved; the later depth sort permutes it but does not change membership or
count). -/
noncomputable def visible_faces (verts : Fin 8 → Vec3) : List (Fin 6) :=
  (List.finRange 6).filter fun i => decide (face_visible verts i)

/-- `num_vis` of `render_cube`. -/
noncomputable def visible_count (verts : Fin 8 → Vec3) : ℕ :=
  (visible_faces verts).length

/-- The `has_v0`/`has_v1` inner loop of the silhouette pass: does face `i`
contain vertex index `v` among its four corners? -/
def face_has (i : Fin 6) (v : Fin 8) : Bool :=
  (List.finRange 4).any fun k => CUBE_FACES i k == v

/-- The `shared` counter of the silhouette pass: how many currently-visible
faces contain both endpoints of edge `e`. -/
def edge_shared_count (vis : List (Fin 6)) (e : Fin 12) : ℕ :=
  vis.countP fun fi => face_has fi (EDGES e).1 && face_has fi (EDGES e).2

/-- The drawing condition of the silhouette pass: `if (shared == 1) draw_line`. -/
def edge_drawn (vis : List (Fin 6)) (e : Fin 12) : Prop :=
  edge_shared_count vis e = 1

/-- The four vertex indices of a face, as a list (the spec's reading "faces
containing both endpoint vertex indices"). -/
def face_vert_list (i : Fin 6) : List (Fin 8) :=
  (List.finRange 4).map (CUBE_FACES i)

/-- Truncation toward zero: the semantics of the C `(int)` cast of a `double`. -/
noncomputable def trunc (x : ℝ) : ℤ := if 0 ≤ x then ⌊x⌋ else ⌈x⌉

/-- The iteration domain of a C loop `for (v = lo; v <= hi; v++)`. -/
def intRange (lo hi : ℤ) : List ℤ :=
  (List.range (hi + 1 - lo).toNat).map fun k => lo + (k : ℤ)

/-- The 2D edge function used throughout `fill_tri`:
`(xb - xa) * (py - ya) - (yb - ya) * (px - xa)`, the cross-product form of the
signed area spanned by the edge `(xa,ya) → (xb,yb)` and the point `(px,py)`.
`fill_tri`'s `area`, `w0`, `w1` and `w2` are all instances of it. -/
def edge_fn (xa ya xb yb px py : ℝ) : ℝ :=
  (xb - xa) * (py - ya) - (yb - ya) * (px - xa)

/-- One framebuffer write emitted by the rasterizer: the arguments of a
`put_pixel` call. -/
structure PixelWrite where
  x : ℤ
  cell_y : ℤ
  is_top : Bool
  col : Color
  depth : ℝ

/-- Replay a list of rasterizer writes against the framebuffer. -/
noncomputable def apply_writes (b : Buffer) (l : List PixelWrite) : Buffer :=
  l.foldl (fun bb w => put_pixel bb w.x w.cell_y w.is_top w.col w.depth) b

/-- The body of `fill_tri`'s per-sub-pixel loop: the inside test (all three
edge functions sharing the sign of the signed area), barycentric depth
interpolation `z = b0*z0 + b1*z1 + b2*z2`, and the `cell_y` bounds check
guarding the `put_pixel` call. -/
noncomputable def pixel_write (bh : ℤ) (shaded : Color) (x y : ℤ)
    (area w0 w1 w2 z0 z1 z2 : ℝ) : Option PixelWrite :=
  if (0 < area ∧ 0 ≤ w0 ∧ 0 ≤ w1 ∧ 0 ≤ w2) ∨
     (area < 0 ∧ w0 ≤ 0 ∧ w1 ≤ 0 ∧ w2 ≤ 0) then
    let invA := 1 / area
    let b0 := w0 * invA
    let b1 := w1 * invA
    let b2 := w2 * invA
    let z := b0 * z0 + b1 * z1 + b2 * z2
    let cell_y := Int.tdiv y 2
    if 0 ≤ cell_y ∧ cell_y < bh then some ⟨x, cell_y, decide (Int.tmod y 2 = 0), shaded, z⟩
    else none
  else none

/-- `fill_tri(Vec3 v0, Vec3 v1, Vec3 v2, Color col, double brightness)` as the
list of `put_pixel` calls it performs, in order: projects the three vertices
(whole triangle skipped if any projection fails), clamps the integer bounding
box, skips triangles of absolute signed area below `1e-8`, then scans the
bounding box testing each sub-pixel centre. -/
noncomputable def fill_tri_writes (b : Buffer) (zoom : ℝ) (v0 v1 v2 : Vec3)
    (col : Color) (brightness : ℝ) : List PixelWrite :=
  match project b zoom v0, project b zoom v1, project b zoom v2 with
  | some (x0, y0, z0), some (x1, y1, z1), some (x2, y2, z2) =>
    let fl_min_x := ⌊min x0 (min x1 x2)⌋
    let min_x := if fl_min_x < 0 then 0 else fl_min_x
    let cl_max_x := ⌈max x0 (max x1 x2)⌉
    let max_x := if b.width ≤ cl_max_x then b.width - 1 else cl_max_x
    let fl_min_y := ⌊min y0 (min y1 y2)⌋
    let min_y := if fl_min_y < 0 then 0 else fl_min_y
    let cl_max_y := ⌈max y0 (max y1 y2)⌉
    let max_y := if b.height * 2 ≤ cl_max_y then b.height * 2 - 1 else cl_max_y
    let area := edge_fn x0 y0 x1 y1 x2 y2
    if |area| < 1e-8 then []
    else
      let shaded := shade col brightness
      (intRange min_y max_y).flatMap fun y =>
        (intRange min_x max_x).filterMap fun x =>
          let px : ℝ := ((x : ℤ) : ℝ) + 0.5
          let py : ℝ := ((y : ℤ) : ℝ) + 0.5
          pixel_write b.height shaded x y area
            (edge_fn x1 y1 x2 y2 px py) (edge_fn x2 y2 x0 y0 px py)
            (edge_fn x0 y0 x1 y1 px py) z0 z1 z2
  | _, _, _ => []

/-- `fill_tri` as a framebuffer transformer: its writes replayed in order. -/
noncomputable def fill_tri (b : Buffer) (zoom : ℝ) (v0 v1 v2 : Vec3)
    (col : Color) (brightness : ℝ) : Buffer :=
  apply_writes b (fill_tri_writes b zoom v0 v1 v2 col brightness)

/-- The per-iteration framebuffer write of `draw_line`'s loop:
`int py = y / 2; int is_top = (y % 2 == 0); if (py >= 0 && py < buf.height)
put_pixel(x, py, is_top, col, z + 0.01);` (C `/` and `%` on `int` truncate
toward zero, `Int.tdiv`/`Int.tmod`). -/
noncomputable def bres_pixel (b : Buffer) (col : Color) (x y : ℤ) (z : ℝ) : Buffer :=
  let py := Int.tdiv y 2
  let is_top := decide (Int.tmod y 2 = 0)
  if 0 ≤ py ∧ py < b.height then put_pixel b x py is_top col (z + 0.01) else b

/-- The `while (1)` Bresenham loop of `draw_line`, with explicit fuel.  Each
iteration writes the current sub-pixel (with the `+0.01` silhouette depth
bias), breaks once both stepped coordinates reach the truncated endpoint, and
otherwise advances `x`, `y` and `err` exactly as the source does.  The `Bool`
result is `true` iff the loop reached its `break` before the fuel ran out. -/
noncomputable def bres_loop (col : Color) (ix1 iy1 sx sy dx dy : ℤ) (dz : ℝ) :
    ℕ → Buffer → ℤ → ℤ → ℤ → ℝ → Buffer × Bool
  | 0, b, _, _, _, _ => (b, false)
  | fuel + 1, b, x, y, err, z =>
    let b' := bres_pixel b col x y z
    if x = ix1 ∧ y = iy1 then (b', true)
    else
      let e2 := err * 2
      let x' := if -dy < e2 then x + sx else x
      let err' := if -dy < e2 then err - dy else err
      let y' := if e2 < dx then y + sy else y
      let err'' := if e2 < dx then err' + dx else err'
      bres_loop col ix1 iy1 sx sy dx dy dz fuel b' x' y' err'' (z + dz)

/-- The body of `draw_line` after both projections succeed: truncates the
endpoints to integers, sets up `dx`, `dy`, `sx`, `sy`, `err` and the depth
increment `dz`, and runs the Bresenham loop with fuel `dx + dy + 1` (which,
per `draw_line_terminates`, always suffices to reach the `break`). -/
noncomputable def draw_line_aux (b : Buffer) (col : Color)
    (x0 y0 z0 x1 y1 z1 : ℝ) : Buffer × Bool :=
  let ix0 := trunc x0
  let iy0 := trunc y0
  let ix1 := trunc x1
  let iy1 := trunc y1
  let dx := |ix1 - ix0|
  let dy := |iy1 - iy0|
  let sx : ℤ := if x0 < x1 then 1 else -1
  let sy : ℤ := if y0 < y1 then 1 else -1
  let err := dx - dy
  let steps : ℝ := max (dx : ℝ) (dy : ℝ)
  let dz := if 0 < steps then (z1 - z0) / steps else 0
  bres_loop col ix1 iy1 sx sy dx dy dz (dx + dy + 1).toNat b ix0 iy0 err z0

/-- `draw_line(Vec3 p0, Vec3 p1, Color col)`: if either endpoint fails
projection the call draws nothing; otherwise the Bresenham walk runs. -/
noncomputable def draw_line (b : Buffer) (zoom : ℝ) (p0 p1 : Vec3) (col : Color) : Buffer :=
  match project b zoom p0, project b zoom p1 with
  | some (x0, y0, z0), some (x1, y1, z1) => (draw_line_aux b col x0 y0 z0 x1 y1 z1).1
  | _, _ => b

/-- The colour-state the compositor `buf_render` threads through a frame:
`last_fg`, `last_bg` and the `bg_is_default` flag. -/
structure CompState where
  last_fg : Color
  last_bg : Color
  bg_is_default : Bool
deriving DecidableEq, Repr

/-- The terminal instructions `buf_render` can emit for one cell: a truecolor
foreground escape, a truecolor background escape, the `ESC[49m` reset to the
default background, or one of the three glyphs. -/
inductive Instr where
  | set_fg (c : Color)
  | set_bg (c : Color)
  | reset_bg
  | glyph_space
  | glyph_upper
  | glyph_lower
deriving DecidableEq, Repr

/-- The componentwise colour comparison of `buf_render`
(`t.r != last.r || t.g != last.g || t.b != last.b`). -/
def color_ne (a c : Color) : Prop := a.r ≠ c.r ∨ a.g ≠ c.g ∨ a.b ≠ c.b

instance (a c : Color) : Decidable (color_ne a c) := by
  unfold color_ne
  infer_instance

/-- One iteration of the inner loop of `buf_render`: render a single cell
(`top_set`/`bot_set` are the two depth-sentinel tests, `t_col`/`b_col` the two
stored colours), returning the updated colour state and the emitted
instructions, in emission order. -/
def buf_render_cell (s : CompState) (top_set bot_set : Bool) (t_col b_col : Color) :
    CompState × List Instr :=
  if ¬top_set ∧ ¬bot_set then
    (⟨s.last_fg, s.last_bg, true⟩,
      (if s.bg_is_default then [] else [Instr.reset_bg]) ++ [Instr.glyph_space])
  else if top_set ∧ ¬bot_set then
    let l1 : List Instr := if s.bg_is_default then [] else [Instr.reset_bg]
    let l2 : List Instr := if color_ne t_col s.last_fg then [Instr.set_fg t_col] else []
    let fg := if color_ne t_col s.last_fg then t_col else s.last_fg
    (⟨fg, s.last_bg, true⟩, l1 ++ l2 ++ [Instr.glyph_upper])
  else if ¬top_set ∧ bot_set then
    let l1 : List Instr := if s.bg_is_default then [] else [Instr.reset_bg]
    let l2 : List Instr := if color_ne b_col s.last_fg then [Instr.set_fg b_col] else []
    let fg := if color_ne b_col s.last_fg then b_col else s.last_fg
    (⟨fg, s.last_bg, true⟩, l1 ++ l2 ++ [Instr.glyph_lower])
  else
    let l1 : List Instr := if color_ne t_col s.last_fg then [Instr.set_fg t_col] else []
    let fg := if color_ne t_col s.last_fg then t_col else s.last_fg
    let l2 : List Instr := if color_ne b_col s.last_bg then [Instr.set_bg b_col] else []
    let bg := if color_ne b_col s.last_bg then b_col else s.last_bg
    (⟨fg, bg, false⟩, l1 ++ l2 ++ [Instr.glyph_upper])

/-- The foreground colour a cell requires of the terminal: the top colour when
the top sub-pixel is set, else the bottom colour when only the bottom is set,
else none (the cell is blank). -/
def req_fg (top_set bot_set : Bool) (t_col b_col : Color) : Option Color :=
  if top_set then some t_col else if bot_set then some b_col else none

/-- The background colour a cell requires: the bottom colour when both
sub-pixels are set, otherwise the default background (`none`). -/
def req_bg (top_set bot_set : Bool) (_t_col b_col : Color) : Option Color :=
  if top_set ∧ bot_set then some b_col else none

/-- Is an instruction a foreground colour change? -/
def is_set_fg : Instr → Bool
  | Instr.set_fg _ => true
  | _ => false

/-- Is an instruction a background colour change (including the reset to the
default background)? -/
def is_bg_change : Instr → Bool
  | Instr.set_bg _ => true
  | Instr.reset_bg => true
  | _ => false

/-- Number of foreground colour-change instructions in an emission list. -/
def fg_count (l : List Instr) : ℕ := l.countP is_set_fg

/-- Number of background colour-change instructions in an emission list. -/
def bg_count (l : List Instr) : ℕ := l.countP is_bg_change

end CubeRender

namespace CubeRender

/-- A concrete all-black, all-empty 2×2 buffer with both depth planes at a
constant test value, used by witnesses. -/
noncomputable def bufW : Buffer :=
  ⟨2, 2, fun _ => ⟨0, 0, 0⟩, fun _ => ⟨0, 0, 0⟩, fun _ => 0, fun _ => 0⟩

/-- A freshly cleared 40×12 buffer (depth planes at the `-1e10` sentinel of
`buf_clear`), used by rasterizer witnesses. -/
noncomputable def bufW40 : Buffer :=
  ⟨40, 12, fun _ => ⟨0, 0, 0⟩, fun _ => ⟨0, 0, 0⟩, fun _ => -1e10, fun _ => -1e10⟩

end CubeRender

open CubeRender

/-- **C1.** Top-slot depth test: for every in-bounds cell, a top-slot write with
depth equal to or lower than the stored top depth leaves the buffer (hence the
stored top colour and top depth) unchanged, and a write with strictly greater
depth replaces both the stored top colour and top depth with the new values. -/
theorem put_pixel_top_depth_test (b : Buffer) (x y : ℤ) (col : Color) (depth : ℝ)
    (hx0 : 0 ≤ x) (hx1 : x < b.width) (hy0 : 0 ≤ y) (hy1 : y < b.height) :
    (depth ≤ b.top_depth (y * b.width + x) → put_pixel b x y true col depth = b) ∧
    (b.top_depth (y * b.width + x) < depth →
      (put_pixel b x y true col depth).top_color (y * b.width + x) = col ∧
      (put_pixel b x y true col depth).top_depth (y * b.width + x) = depth) := by
  have hbound : ¬(x < 0 ∨ b.width ≤ x ∨ y < 0 ∨ b.height ≤ y) := by
    push_neg
    exact ⟨hx0, hx1, hy0, hy1⟩
  constructor
  · intro hle
    unfold put_pixel
    rw [if_neg hbound]
    simp only [if_pos rfl, if_true]
    rw [if_neg (not_lt.mpr hle)]
  · intro hlt
    unfold put_pixel
    rw [if_neg hbound]
    simp only [if_true]
    rw [if_pos hlt]
    simp

/-- Witness for C1 at a concrete buffer and cell: a write at depth `-1 ≤ 0`
leaves the buffer untouched, and a write at depth `1 > 0` lands. -/
theorem put_pixel_top_depth_test_witness :
    put_pixel bufW 0 1 true ⟨10, 20, 30⟩ (-1) = bufW ∧
    (put_pixel bufW 0 1 true ⟨10, 20, 30⟩ 1).top_depth 2 = 1 := by
  have h1 := put_pixel_top_depth_test bufW 0 1 ⟨10, 20, 30⟩ (-1)
    (by norm_num) (by norm_num [bufW]) (by norm_num) (by norm_num [bufW])
  have h2 := put_pixel_top_depth_test bufW 0 1 ⟨10, 20, 30⟩ 1
    (by norm_num) (by norm_num [bufW]) (by norm_num) (by norm_num [bufW])
  refine ⟨h1.1 (by norm_num [bufW]), ?_⟩
  have := (h2.2 (by norm_num [bufW])).2
  simpa [bufW] using this

/-- **C2 counterexample.** The claim says a bottom-slot write whose depth is
*up to* `0.01` below the stored bottom depth still replaces it.  At exactly
`0.01` below (stored depth `0.01`, written depth `0`, an in-bounds cell) the
code's strict comparison `depth > bot_depth - 0.01` is false and the buffer is
left unchanged: the stored depth stays `0.01` and the stored colour stays
black, so no replacement happens. -/
theorem put_pixel_bot_bias_boundary :
    (put_pixel ⟨1, 1, fun _ => ⟨0, 0, 0⟩, fun _ => ⟨0, 0, 0⟩, fun _ => 0, fun _ => 0.01⟩
        0 0 false ⟨255, 0, 0⟩ 0) =
      ⟨1, 1, fun _ => ⟨0, 0, 0⟩, fun _ => ⟨0, 0, 0⟩, fun _ => 0, fun _ => 0.01⟩ ∧
    (0 : ℝ) = (0.01 : ℝ) - 0.01 ∧
    ((0.01 : ℝ) ≠ 0) := by
  refine ⟨?_, by norm_num, by norm_num⟩
  unfold put_pixel
  rw [if_neg (by norm_num)]
  norm_num

/-- **C2 (amended).** Bottom-slot bias: for every in-bounds cell, a bottom-slot
write whose depth is *strictly less than* `0.01` below the stored bottom depth
(i.e. `depth > stored - 0.01`) replaces the stored bottom colour and depth;
a write at exactly `0.01` below or more leaves the buffer unchanged. -/
theorem put_pixel_bot_bias (b : Buffer) (x y : ℤ) (col : Color) (depth : ℝ)
    (hx0 : 0 ≤ x) (hx1 : x < b.width) (hy0 : 0 ≤ y) (hy1 : y < b.height) :
    (b.bot_depth (y * b.width + x) - 0.01 < depth →
      (put_pixel b x y false col depth).bot_color (y * b.width + x) = col ∧
      (put_pixel b x y false col depth).bot_depth (y * b.width + x) = depth) ∧
    (depth ≤ b.bot_depth (y * b.width + x) - 0.01 →
      put_pixel b x y false col depth = b) := by
  have hbound : ¬(x < 0 ∨ b.width ≤ x ∨ y < 0 ∨ b.height ≤ y) := by
    push_neg
    exact ⟨hx0, hx1, hy0, hy1⟩
  constructor
  · intro hlt
    unfold put_pixel
    rw [if_neg hbound]
    simp only [Bool.false_eq_true, if_false]
    rw [if_pos hlt]
    simp
  · intro hle
    unfold put_pixel
    rw [if_neg hbound]
    simp only [Bool.false_eq_true, if_false]
    rw [if_neg (not_lt.mpr hle)]

/-- Witness for C2 (amended) at a concrete buffer: depth `-0.005`, which is
within `0.01` of the stored `0`, replaces the stored bottom depth; depth
`-0.02` leaves the buffer untouched. -/
theorem put_pixel_bot_bias_witness :
    (put_pixel bufW 1 0 false ⟨9, 9, 9⟩ (-0.005)).bot_depth 1 = -0.005 ∧
    put_pixel bufW 1 0 false ⟨9, 9, 9⟩ (-0.02) = bufW := by
  have h1 := put_pixel_bot_bias bufW 1 0 ⟨9, 9, 9⟩ (-0.005)
    (by norm_num) (by norm_num [bufW]) (by norm_num) (by norm_num [bufW])
  have h2 := put_pixel_bot_bias bufW 1 0 ⟨9, 9, 9⟩ (-0.02)
    (by norm_num) (by norm_num [bufW]) (by norm_num) (by norm_num [bufW])
  refine ⟨?_, h2.2 (by norm_num [bufW])⟩
  have := (h1.1 (by norm_num [bufW])).2
  simpa [bufW] using this

/-- **C3 counterexample.** The claim says `project` rejects *exactly* the
points with `z ∈ [-0.5, 0]` or `z ≤ -100` and accepts all others.  The point
`(0, 0, 1)` has `z = 1`, which lies in neither rejection set of the claim, yet
the code rejects it (its test is `z >= -0.5`, which also catches every
positive `z`). -/
theorem project_rejects_positive_z :
    project bufW 0.6 ⟨0, 0, 1⟩ = none ∧
    ¬((-0.5 ≤ (1 : ℝ) ∧ (1 : ℝ) ≤ 0) ∨ (1 : ℝ) ≤ -100) := by
  constructor
  · unfold project
    rw [if_pos (by norm_num)]
  · norm_num

/-- **C3 (amended).** Projection rejection window: `project` rejects exactly
the points with `z ≥ -0.5` (too close or behind the camera) or `z ≤ -100`
(too far), accepts all other points, and is deterministic — it is a pure
function of the point, the zoom and the buffer dimensions, so equal inputs
give equal accept/reject outcomes, screen coordinates and depths. -/
theorem project_window (b : Buffer) (zoom : ℝ) (p q : Vec3) :
    (project b zoom p = none ↔ (-0.5 ≤ p.z ∨ p.z ≤ -100)) ∧
    (p = q → project b zoom p = project b zoom q) := by
  have heq : (-0.5 ≤ p.z ∨ p.z ≤ -100.0) ↔ (-0.5 ≤ p.z ∨ p.z ≤ -100) := by norm_num
  constructor
  · constructor
    · intro hnone
      by_contra hc
      unfold project at hnone
      rw [if_neg (heq.not.mpr hc)] at hnone
      exact Option.some_ne_none _ hnone
    · intro hz
      unfold project
      rw [if_pos (heq.mpr hz)]
  · intro h
    rw [h]

/-- **C4.** Lighting bound: for every unit-length input normal and every value
of the elapsed-time variable, the computed brightness lies in `[0, 1]`; the
sum of the ambient, two diffuse and specular terms is never negative (it is
only clamped above, at `1.0`). -/
theorem calc_light_bounds (t : ℝ) (n : Vec3) (hn : dot n n = 1) :
    0 ≤ calc_light_sum t n ∧
    0 ≤ calc_light t n ∧ calc_light t n ≤ 1 ∧
    calc_light t n = min (calc_light_sum t n) 1 := by
  have hsum : 0 ≤ calc_light_sum t n := by
    unfold calc_light_sum
    have h1 : (0 : ℝ) ≤ max 0 (dot n (light1 t)) * 0.8 :=
      mul_nonneg (le_max_left 0 _) (by norm_num)
    have h2 : (0 : ℝ) ≤ max 0 (dot n light2) * 0.15 :=
      mul_nonneg (le_max_left 0 _) (by norm_num)
    have h3 : (0 : ℝ) ≤
        max 0 (dot n (normalize (add (light1 t) view_dir))) ^ (100 : ℕ) * 0.55 :=
      mul_nonneg (pow_nonneg (le_max_left 0 _) 100) (by norm_num)
    have h0 : (0 : ℝ) ≤ 0.15 := by norm_num
    linarith
  refine ⟨hsum, ?_, ?_, ?_⟩
  · exact le_min hsum (by norm_num)
  · calc calc_light t n ≤ 1.0 := min_le_right _ _
      _ = 1 := by norm_num
  · unfold calc_light
    norm_num

/-- Witness for C4 at the unit normal `(0,0,1)` and time `0`. -/
theorem calc_light_bounds_witness :
    0 ≤ calc_light 0 ⟨0, 0, 1⟩ ∧ calc_light 0 ⟨0, 0, 1⟩ ≤ 1 := by
  have h := calc_light_bounds 0 ⟨0, 0, 1⟩ (by norm_num [dot])
  exact ⟨h.2.1, h.2.2.1⟩

theorem color_ne_iff (a c : Color) : color_ne a c ↔ a ≠ c := by
  cases a
  cases c
  simp only [color_ne, ne_eq, Color.mk.injEq]
  tauto

theorem cell_last_fg (s : CompState) (ts bs : Bool) (t_col b_col f : Color)
    (h : req_fg ts bs t_col b_col = some f) :
    (buf_render_cell s ts bs t_col b_col).1.last_fg = f := by
  cases ts <;> cases bs <;>
    by_cases h1 : color_ne t_col s.last_fg <;>
    by_cases h3 : color_ne b_col s.last_fg <;>
    simp_all [buf_render_cell, req_fg, color_ne_iff]

theorem cell_bg_some (s : CompState) (ts bs : Bool) (t_col b_col g : Color)
    (h : req_bg ts bs t_col b_col = some g) :
    (buf_render_cell s ts bs t_col b_col).1.last_bg = g ∧
    (buf_render_cell s ts bs t_col b_col).1.bg_is_default = false := by
  cases ts <;> cases bs <;>
    by_cases h2 : color_ne b_col s.last_bg <;>
    simp_all [buf_render_cell, req_bg, color_ne_iff]

theorem cell_bg_none (s : CompState) (ts bs : Bool) (t_col b_col : Color)
    (h : req_bg ts bs t_col b_col = none) :
    (buf_render_cell s ts bs t_col b_col).1.bg_is_default = true := by
  cases ts <;> cases bs <;>
    simp_all [buf_render_cell, req_bg]

theorem cell_fg_count_le_one (s : CompState) (ts bs : Bool) (t_col b_col : Color) :
    fg_count (buf_render_cell s ts bs t_col b_col).2 ≤ 1 := by
  cases ts <;> cases bs <;>
    by_cases h1 : color_ne t_col s.last_fg <;>
    by_cases h3 : color_ne b_col s.last_fg <;>
    by_cases h2 : color_ne b_col s.last_bg <;>
    by_cases h4 : s.bg_is_default <;>
    simp_all [buf_render_cell, fg_count, is_set_fg, is_bg_change,
      List.countP_append, List.countP_cons]

theorem cell_bg_count_le_one (s : CompState) (ts bs : Bool) (t_col b_col : Color) :
    bg_count (buf_render_cell s ts bs t_col b_col).2 ≤ 1 := by
  cases ts <;> cases bs <;>
    by_cases h1 : color_ne t_col s.last_fg <;>
    by_cases h3 : color_ne b_col s.last_fg <;>
    by_cases h2 : color_ne b_col s.last_bg <;>
    by_cases h4 : s.bg_is_default <;>
    simp_all [buf_render_cell, bg_count, is_set_fg, is_bg_change,
      List.countP_append, List.countP_cons]

theorem cell_fg_count_zero (s : CompState) (ts bs : Bool) (t_col b_col : Color)
    (h : ∀ f, req_fg ts bs t_col b_col = some f → f = s.last_fg) :
    fg_count (buf_render_cell s ts bs t_col b_col).2 = 0 := by
  cases ts <;> cases bs <;>
    by_cases h1 : color_ne t_col s.last_fg <;>
    by_cases h3 : color_ne b_col s.last_fg <;>
    by_cases h4 : s.bg_is_default <;>
    simp_all [buf_render_cell, req_fg, fg_count, is_set_fg, color_ne_iff,
      List.countP_append, List.countP_cons]

theorem cell_bg_count_zero (s : CompState) (ts bs : Bool) (t_col b_col : Color)
    (hsome : ∀ g, req_bg ts bs t_col b_col = some g → g = s.last_bg)
    (hnone : req_bg ts bs t_col b_col = none → s.bg_is_default = true) :
    bg_count (buf_render_cell s ts bs t_col b_col).2 = 0 := by
  cases ts <;> cases bs <;>
    by_cases h2 : color_ne b_col s.last_bg <;>
    by_cases h1 : color_ne t_col s.last_fg <;>
    by_cases h3 : color_ne b_col s.last_fg <;>
    simp_all [buf_render_cell, req_bg, bg_count, is_bg_change, color_ne_iff,
      List.countP_append, List.countP_cons]

/-- **C9.** Compositor colour-state minimisation: when two adjacent cells in a
row require identical foreground and background colours, the pair causes at
most one foreground colour-change instruction and at most one background
colour-change instruction (none is re-emitted for the second cell); moreover a
colour instruction is emitted only when the tracked last-emitted foreground or
background differs from the cell's required colour. -/
theorem buf_render_state_minimization :
    (∀ (s : CompState) (ts1 bs1 ts2 bs2 : Bool) (t1 b1 t2 b2 : Color),
      req_fg ts1 bs1 t1 b1 = req_fg ts2 bs2 t2 b2 →
      req_bg ts1 bs1 t1 b1 = req_bg ts2 bs2 t2 b2 →
      fg_count ((buf_render_cell s ts1 bs1 t1 b1).2 ++
        (buf_render_cell (buf_render_cell s ts1 bs1 t1 b1).1 ts2 bs2 t2 b2).2) ≤ 1 ∧
      bg_count ((buf_render_cell s ts1 bs1 t1 b1).2 ++
        (buf_render_cell (buf_render_cell s ts1 bs1 t1 b1).1 ts2 bs2 t2 b2).2) ≤ 1) ∧
    (∀ (s : CompState) (ts bs : Bool) (t_col b_col c : Color),
      (Instr.set_fg c ∈ (buf_render_cell s ts bs t_col b_col).2 →
        req_fg ts bs t_col b_col = some c ∧ color_ne c s.last_fg) ∧
      (Instr.set_bg c ∈ (buf_render_cell s ts bs t_col b_col).2 →
        req_bg ts bs t_col b_col = some c ∧ color_ne c s.last_bg) ∧
      (Instr.reset_bg ∈ (buf_render_cell s ts bs t_col b_col).2 →
        req_bg ts bs t_col b_col = none ∧ s.bg_is_default = false)) := by
  constructor
  · intro s ts1 bs1 ts2 bs2 t1 b1 t2 b2 hfg hbg
    have hfg2 : fg_count (buf_render_cell (buf_render_cell s ts1 bs1 t1 b1).1 ts2 bs2 t2 b2).2 = 0 := by
      apply cell_fg_count_zero
      intro f hf
      exact (cell_last_fg s ts1 bs1 t1 b1 f (hfg.trans hf)).symm
    have hbg2 : bg_count (buf_render_cell (buf_render_cell s ts1 bs1 t1 b1).1 ts2 bs2 t2 b2).2 = 0 := by
      apply cell_bg_count_zero
      · intro g hg
        exact ((cell_bg_some s ts1 bs1 t1 b1 g (hbg.trans hg)).1).symm
      · intro hg
        exact cell_bg_none s ts1 bs1 t1 b1 (hbg.trans hg)
    constructor
    · have h1 := cell_fg_count_le_one s ts1 bs1 t1 b1
      simp only [fg_count, List.countP_append] at h1 hfg2 ⊢
      omega
    · have h1 := cell_bg_count_le_one s ts1 bs1 t1 b1
      simp only [bg_count, List.countP_append] at h1 hbg2 ⊢
      omega
  · intro s ts bs t_col b_col c
    refine ⟨?_, ?_, ?_⟩ <;>
      (cases ts <;> cases bs <;>
        by_cases h1 : color_ne t_col s.last_fg <;>
        by_cases h3 : color_ne b_col s.last_fg <;>
        by_cases h2 : color_ne b_col s.last_bg <;>
        by_cases h4 : s.bg_is_default <;>
        simp_all [buf_render_cell, req_fg, req_bg])

/-- Witness for C9: two adjacent both-set cells of identical colours, starting
from the compositor's initial state; the pair emits at most one foreground and
one background change. -/
theorem buf_render_state_minimization_witness :
    fg_count ((buf_render_cell ⟨⟨255, 255, 255⟩, ⟨255, 255, 255⟩, true⟩ true true ⟨1, 2, 3⟩ ⟨4, 5, 6⟩).2 ++
      (buf_render_cell (buf_render_cell ⟨⟨255, 255, 255⟩, ⟨255, 255, 255⟩, true⟩ true true ⟨1, 2, 3⟩ ⟨4, 5, 6⟩).1
        true true ⟨1, 2, 3⟩ ⟨4, 5, 6⟩).2) ≤ 1 ∧
    bg_count ((buf_render_cell ⟨⟨255, 255, 255⟩, ⟨255, 255, 255⟩, true⟩ true true ⟨1, 2, 3⟩ ⟨4, 5, 6⟩).2 ++
      (buf_render_cell (buf_render_cell ⟨⟨255, 255, 255⟩, ⟨255, 255, 255⟩, true⟩ true true ⟨1, 2, 3⟩ ⟨4, 5, 6⟩).1
        true true ⟨1, 2, 3⟩ ⟨4, 5, 6⟩).2) ≤ 1 :=
  buf_render_state_minimization.1 ⟨⟨255, 255, 255⟩, ⟨255, 255, 255⟩, true⟩
    true true true true ⟨1, 2, 3⟩ ⟨4, 5, 6⟩ ⟨1, 2, 3⟩ ⟨4, 5, 6⟩ rfl rfl

theorem edge_fn_flip (xa ya xb yb px py : ℝ) :
    edge_fn xb yb xa ya px py = -edge_fn xa ya xb yb px py := by
  unfold edge_fn
  ring

theorem edge_fn_arg_swap (xa ya xb yb xc yc : ℝ) :
    edge_fn xa ya xc yc xb yb = -edge_fn xa ya xb yb xc yc := by
  unfold edge_fn
  ring

theorem pixel_write_neg (bh : ℤ) (shaded : Color) (x y : ℤ)
    (area w0 w1 w2 z0 z1 z2 : ℝ) :
    pixel_write bh shaded x y (-area) (-w0) (-w2) (-w1) z0 z2 z1 =
    pixel_write bh shaded x y area w0 w1 w2 z0 z1 z2 := by
  unfold pixel_write
  by_cases h : (0 < area ∧ 0 ≤ w0 ∧ 0 ≤ w1 ∧ 0 ≤ w2) ∨
      (area < 0 ∧ w0 ≤ 0 ∧ w1 ≤ 0 ∧ w2 ≤ 0)
  · have h' : (0 < -area ∧ 0 ≤ -w0 ∧ 0 ≤ -w2 ∧ 0 ≤ -w1) ∨
        (-area < 0 ∧ -w0 ≤ 0 ∧ -w2 ≤ 0 ∧ -w1 ≤ 0) := by
      rcases h with ⟨h1, h2, h3, h4⟩ | ⟨h1, h2, h3, h4⟩
      · exact Or.inr ⟨by linarith, by linarith, by linarith, by linarith⟩
      · exact Or.inl ⟨by linarith, by linarith, by linarith, by linarith⟩
    rw [if_pos h', if_pos h]
    dsimp only
    refine if_congr Iff.rfl ?_ rfl
    simp only [Option.some.injEq, PixelWrite.mk.injEq, eq_self_iff_true, true_and]
    rw [div_neg]
    ring
  · have h' : ¬((0 < -area ∧ 0 ≤ -w0 ∧ 0 ≤ -w2 ∧ 0 ≤ -w1) ∨
        (-area < 0 ∧ -w0 ≤ 0 ∧ -w2 ≤ 0 ∧ -w1 ≤ 0)) := by
      intro hc
      apply h
      rcases hc with ⟨h1, h2, h3, h4⟩ | ⟨h1, h2, h3, h4⟩
      · exact Or.inr ⟨by linarith, by linarith, by linarith, by linarith⟩
      · exact Or.inl ⟨by linarith, by linarith, by linarith, by linarith⟩
    rw [if_neg h', if_neg h]

/-- **C7.** Winding-agnostic triangle fill: for every triangle whose three
vertices all project successfully and whose signed 2D area is non-degenerate
(at least `1e-8` in magnitude), filling with vertex order `(v0, v2, v1)`
performs exactly the same framebuffer writes — the same accepted sub-pixels
with the same interpolated depths — as filling with `(v0, v1, v2)`. -/
theorem fill_tri_winding_agnostic (b : Buffer) (zoom : ℝ) (v0 v1 v2 : Vec3)
    (col : Color) (br : ℝ) (x0 y0 z0 x1 y1 z1 x2 y2 z2 : ℝ)
    (h0 : project b zoom v0 = some (x0, y0, z0))
    (h1 : project b zoom v1 = some (x1, y1, z1))
    (h2 : project b zoom v2 = some (x2, y2, z2))
    (harea : 1e-8 ≤ |edge_fn x0 y0 x1 y1 x2 y2|) :
    fill_tri_writes b zoom v0 v2 v1 col br = fill_tri_writes b zoom v0 v1 v2 col br := by
  unfold fill_tri_writes
  rw [h0, h1, h2]
  dsimp only
  rw [min_comm x2 x1, max_comm x2 x1, min_comm y2 y1, max_comm y2 y1,
    edge_fn_arg_swap x0 y0 x1 y1 x2 y2, abs_neg]
  rw [if_neg (not_lt.mpr harea), if_neg (not_lt.mpr harea)]
  congr 1
  funext y
  congr 1
  funext x
  dsimp only
  rw [edge_fn_flip x1 y1 x2 y2, edge_fn_flip x0 y0 x1 y1, edge_fn_flip x2 y2 x0 y0]
  exact pixel_write_neg b.height (shade col br) x y (edge_fn x0 y0 x1 y1 x2 y2)
    (edge_fn x1 y1 x2 y2 (((x : ℤ) : ℝ) + 0.5) (((y : ℤ) : ℝ) + 0.5))
    (edge_fn x2 y2 x0 y0 (((x : ℤ) : ℝ) + 0.5) (((y : ℤ) : ℝ) + 0.5))
    (edge_fn x0 y0 x1 y1 (((x : ℤ) : ℝ) + 0.5) (((y : ℤ) : ℝ) + 0.5)) z0 z1 z2

/-- Witness for C7: a concrete triangle at `z = -5` on the 40×12 buffer with
zoom `1`; both winding orders produce the same write list. -/
theorem fill_tri_winding_agnostic_witness :
    fill_tri_writes bufW40 1 ⟨0, 0, -5⟩ ⟨0, 1, -5⟩ ⟨1, 0, -5⟩ ⟨255, 0, 0⟩ 1 =
    fill_tri_writes bufW40 1 ⟨0, 0, -5⟩ ⟨1, 0, -5⟩ ⟨0, 1, -5⟩ ⟨255, 0, 0⟩ 1 :=
  fill_tri_winding_agnostic bufW40 1 ⟨0, 0, -5⟩ ⟨1, 0, -5⟩ ⟨0, 1, -5⟩ ⟨255, 0, 0⟩ 1
    20 12 (-5) 29.12 12 (-5) 20 2.88 (-5)
    (by simp only [project, bufW40]; norm_num)
    (by simp only [project, bufW40]; norm_num)
    (by simp only [project, bufW40]; norm_num)
    (by
      have h : edge_fn 20 12 29.12 12 20 2.88 = -(51984 / 625) := by norm_num [edge_fn]
      rw [h, abs_neg, abs_of_pos] <;> norm_num)

/-- **C8.** Primitive rejection atomicity: if any endpoint of a line or any
vertex of a triangle fails the near/far projection window, the whole primitive
is skipped and the framebuffer is left completely unchanged by that draw call;
likewise a triangle whose absolute signed area is below `1e-8` is skipped with
the framebuffer unchanged. -/
theorem primitive_rejection_atomic (b : Buffer) (zoom : ℝ) (p0 p1 v0 v1 v2 : Vec3)
    (col c : Color) (br : ℝ) :
    ((project b zoom p0 = none ∨ project b zoom p1 = none) →
      draw_line b zoom p0 p1 col = b) ∧
    ((project b zoom v0 = none ∨ project b zoom v1 = none ∨ project b zoom v2 = none) →
      fill_tri b zoom v0 v1 v2 c br = b) ∧
    (∀ x0 y0 z0 x1 y1 z1 x2 y2 z2 : ℝ,
      project b zoom v0 = some (x0, y0, z0) →
      project b zoom v1 = some (x1, y1, z1) →
      project b zoom v2 = some (x2, y2, z2) →
      |edge_fn x0 y0 x1 y1 x2 y2| < 1e-8 →
      fill_tri b zoom v0 v1 v2 c br = b) := by
  refine ⟨?_, ?_, ?_⟩
  · intro h
    unfold draw_line
    rcases hp0 : project b zoom p0 with _ | ⟨⟨x0, y0, z0⟩⟩ <;>
      rcases hp1 : project b zoom p1 with _ | ⟨⟨x1, y1, z1⟩⟩ <;>
        simp_all
  · intro h
    have hw : fill_tri_writes b zoom v0 v1 v2 c br = [] := by
      unfold fill_tri_writes
      rcases hp0 : project b zoom v0 with _ | ⟨⟨x0, y0, z0⟩⟩ <;>
        rcases hp1 : project b zoom v1 with _ | ⟨⟨x1, y1, z1⟩⟩ <;>
          rcases hp2 : project b zoom v2 with _ | ⟨⟨x2, y2, z2⟩⟩ <;>
            simp_all
    unfold fill_tri
    rw [hw]
    rfl
  · intro x0 y0 z0 x1 y1 z1 x2 y2 z2 h0 h1 h2 harea
    have hw : fill_tri_writes b zoom v0 v1 v2 c br = [] := by
      unfold fill_tri_writes
      rw [h0, h1, h2]
      dsimp only
      rw [if_pos harea]
    unfold fill_tri
    rw [hw]
    rfl

/-- Witness for C8: a line with one endpoint at `z = 0` (behind the camera), a
triangle with one such vertex, and a zero-area triangle; each leaves the
concrete cleared buffer exactly as it was. -/
theorem primitive_rejection_atomic_witness :
    draw_line bufW40 1 ⟨0, 0, 0⟩ ⟨0, 0, -5⟩ ⟨255, 255, 255⟩ = bufW40 ∧
    fill_tri bufW40 1 ⟨0, 0, 0⟩ ⟨1, 0, -5⟩ ⟨0, 1, -5⟩ ⟨255, 0, 0⟩ 1 = bufW40 ∧
    fill_tri bufW40 1 ⟨0, 0, -5⟩ ⟨0, 0, -5⟩ ⟨0, 0, -5⟩ ⟨255, 0, 0⟩ 1 = bufW40 := by
  have hnone : project bufW40 1 (⟨0, 0, 0⟩ : Vec3) = none := by
    unfold project
    rw [if_pos]
    norm_num
  have hsome : project bufW40 1 (⟨0, 0, -5⟩ : Vec3) = some (20, 12, -5) := by
    simp only [project, bufW40]
    norm_num
  refine ⟨?_, ?_, ?_⟩
  · exact (primitive_rejection_atomic bufW40 1 ⟨0, 0, 0⟩ ⟨0, 0, -5⟩ ⟨0, 0, 0⟩ ⟨0, 0, 0⟩
      ⟨0, 0, 0⟩ ⟨255, 255, 255⟩ ⟨255, 0, 0⟩ 1).1 (Or.inl hnone)
  · exact (primitive_rejection_atomic bufW40 1 ⟨0, 0, 0⟩ ⟨0, 0, 0⟩ ⟨0, 0, 0⟩ ⟨1, 0, -5⟩
      ⟨0, 1, -5⟩ ⟨255, 255, 255⟩ ⟨255, 0, 0⟩ 1).2.1 (Or.inl hnone)
  · exact (primitive_rejection_atomic bufW40 1 ⟨0, 0, 0⟩ ⟨0, 0, 0⟩ ⟨0, 0, -5⟩ ⟨0, 0, -5⟩
      ⟨0, 0, -5⟩ ⟨255, 255, 255⟩ ⟨255, 0, 0⟩ 1).2.2 20 12 (-5) 20 12 (-5) 20 12 (-5)
      hsome hsome hsome (by norm_num [edge_fn])

theorem trunc_mono {a c : ℝ} (h : a ≤ c) : trunc a ≤ trunc c := by
  unfold trunc
  by_cases ha : 0 ≤ a <;> by_cases hc : 0 ≤ c
  · rw [if_pos ha, if_pos hc]
    exact Int.floor_mono h
  · exact absurd (ha.trans h) hc
  · rw [if_neg ha, if_pos hc]
    have h1 : (⌈a⌉ : ℤ) ≤ 0 := by
      have : a ≤ 0 := le_of_lt (lt_of_not_ge ha)
      simpa using Int.ceil_mono this
    have h2 : (0 : ℤ) ≤ ⌊c⌋ := Int.floor_nonneg.mpr hc
    omega
  · rw [if_neg ha, if_neg hc]
    exact Int.ceil_mono h

theorem trunc_step (x0 x1 : ℝ) :
    (if x0 < x1 then (1 : ℤ) else -1) * |trunc x1 - trunc x0| = trunc x1 - trunc x0 := by
  by_cases he : trunc x0 = trunc x1
  · rw [he]
    simp
  · by_cases h : x0 < x1
    · rw [if_pos h]
      have h1 : trunc x0 ≤ trunc x1 := trunc_mono h.le
      rw [abs_of_pos (by omega)]
      ring
    · rw [if_neg h]
      have h1 : trunc x1 ≤ trunc x0 := trunc_mono (le_of_not_lt h)
      rw [abs_of_neg (by omega)]
      ring

theorem bres_loop_completes (col : Color) (ix0 iy0 ix1 iy1 sx sy dx dy : ℤ) (dz : ℝ)
    (hsx : sx * dx = ix1 - ix0) (hsy : sy * dy = iy1 - iy0)
    (hsx1 : sx = 1 ∨ sx = -1) (hsy1 : sy = 1 ∨ sy = -1)
    (hdx : 0 ≤ dx) (hdy : 0 ≤ dy) :
    ∀ (fuel : ℕ) (i j : ℤ), 0 ≤ i → i ≤ dx → 0 ≤ j → j ≤ dy →
      (dx - i) + (dy - j) < (fuel : ℤ) →
      ∀ (b : Buffer) (z : ℝ),
        (bres_loop col ix1 iy1 sx sy dx dy dz fuel b (ix0 + sx * i) (iy0 + sy * j)
          (dx - dy - i * dy + j * dx) z).2 = true := by
  intro fuel
  induction fuel with
  | zero =>
    intro i j _ _ _ _ hf
    exact absurd hf (by push_cast; omega)
  | succ fuel ih =>
    intro i j hi0 hi1 hj0 hj1 hf b z
    simp only [bres_loop]
    have hxeq : (ix0 + sx * i = ix1) ↔ i = dx := by
      rcases hsx1 with h | h <;> subst h <;> constructor <;> intro hx <;> omega
    have hyeq : (iy0 + sy * j = iy1) ↔ j = dy := by
      rcases hsy1 with h | h <;> subst h <;> constructor <;> intro hx <;> omega
    by_cases hbreak : ix0 + sx * i = ix1 ∧ iy0 + sy * j = iy1
    · rw [if_pos hbreak]
    · rw [if_neg hbreak]
      have hnb : ¬(i = dx ∧ j = dy) := fun hc => hbreak ⟨hxeq.mpr hc.1, hyeq.mpr hc.2⟩
      split_ifs with hxs hys hys
      · -- both coordinates step
        have hilt : i < dx := by
          rcases eq_or_lt_of_le hi1 with he | hl
          · exfalso
            have hjlt : j ≤ dy - 1 := by
              rcases eq_or_lt_of_le hj1 with he2 | hl2
              · exact absurd ⟨he, he2⟩ hnb
              · omega
            have hmul : j * dx ≤ (dy - 1) * dx := mul_le_mul_of_nonneg_right hjlt hdx
            rw [← he] at hmul
            nlinarith [hxs, hmul, hdy]
          · exact hl
        have hjlt : j < dy := by
          rcases eq_or_lt_of_le hj1 with he | hl
          · exfalso
            have hile : i ≤ dx - 1 := by omega
            have hmul : i * dy ≤ (dx - 1) * dy := mul_le_mul_of_nonneg_right hile hdy
            rw [← he] at hmul
            nlinarith [hys, hmul, hdx]
          · exact hl
        have hX : ix0 + sx * i + sx = ix0 + sx * (i + 1) := by ring
        have hY : iy0 + sy * j + sy = iy0 + sy * (j + 1) := by ring
        have hE : dx - dy - i * dy + j * dx - dy + dx =
            dx - dy - (i + 1) * dy + (j + 1) * dx := by ring
        rw [hX, hY, hE]
        exact ih (i + 1) (j + 1) (by omega) (by omega) (by omega) (by omega)
          (by push_cast at hf ⊢; omega) _ _
      · -- only x steps
        have hilt : i < dx := by
          rcases eq_or_lt_of_le hi1 with he | hl
          · exfalso
            have hjlt : j ≤ dy - 1 := by
              rcases eq_or_lt_of_le hj1 with he2 | hl2
              · exact absurd ⟨he, he2⟩ hnb
              · omega
            have hmul : j * dx ≤ (dy - 1) * dx := mul_le_mul_of_nonneg_right hjlt hdx
            rw [← he] at hmul
            nlinarith [hxs, hmul, hdy]
          · exact hl
        have hX : ix0 + sx * i + sx = ix0 + sx * (i + 1) := by ring
        have hE : dx - dy - i * dy + j * dx - dy =
            dx - dy - (i + 1) * dy + j * dx := by ring
        rw [hX, hE]
        exact ih (i + 1) j (by omega) (by omega) hj0 hj1
          (by push_cast at hf ⊢; omega) _ _
      · -- only y steps
        have hjlt : j < dy := by
          rcases eq_or_lt_of_le hj1 with he | hl
          · exfalso
            have hile : i ≤ dx - 1 := by
              rcases eq_or_lt_of_le hi1 with he2 | hl2
              · exact absurd ⟨he2, he⟩ hnb
              · omega
            have hmul : i * dy ≤ (dx - 1) * dy := mul_le_mul_of_nonneg_right hile hdy
            rw [← he] at hmul
            nlinarith [hys, hmul, hdx]
          · exact hl
        have hY : iy0 + sy * j + sy = iy0 + sy * (j + 1) := by ring
        have hE : dx - dy - i * dy + j * dx + dx =
            dx - dy - i * dy + (j + 1) * dx := by ring
        rw [hY, hE]
        exact ih i (j + 1) hi0 hi1 (by omega) (by omega)
          (by push_cast at hf ⊢; omega) _ _
      · -- neither steps: impossible while the break has not fired
        exfalso
        have h1 : dx ≤ -dy :=
          le_trans (not_lt.mp hys) (not_lt.mp hxs)
        exact hnb ⟨by omega, by omega⟩

/-- **C10.** The Bresenham line-walking loop in `draw_line` terminates for every
pair of endpoints that both pass projection: started from the truncated first
endpoint with the source's `dx`, `dy`, `sx`, `sy` and `err` initialisation, the
loop reaches its `break` (flag `true`) within the `dx + dy + 1` iterations of
fuel `draw_line_aux` provides, so a single `draw_line` call never loops
forever. -/
theorem draw_line_terminates (b : Buffer) (zoom : ℝ) (p0 p1 : Vec3) (col : Color)
    (x0 y0 z0 x1 y1 z1 : ℝ)
    (h0 : project b zoom p0 = some (x0, y0, z0))
    (h1 : project b zoom p1 = some (x1, y1, z1)) :
    (draw_line_aux b col x0 y0 z0 x1 y1 z1).2 = true := by
  clear h0 h1
  unfold draw_line_aux
  dsimp only
  have hsx1 : (if x0 < x1 then (1 : ℤ) else -1) = 1 ∨
      (if x0 < x1 then (1 : ℤ) else -1) = -1 := by
    by_cases h : x0 < x1 <;> simp [h]
  have hsy1 : (if y0 < y1 then (1 : ℤ) else -1) = 1 ∨
      (if y0 < y1 then (1 : ℤ) else -1) = -1 := by
    by_cases h : y0 < y1 <;> simp [h]
  have h := bres_loop_completes col (trunc x0) (trunc y0) (trunc x1) (trunc y1)
    (if x0 < x1 then (1 : ℤ) else -1) (if y0 < y1 then (1 : ℤ) else -1)
    |trunc x1 - trunc x0| |trunc y1 - trunc y0|
    (if 0 < max (|trunc x1 - trunc x0| : ℝ) (|trunc y1 - trunc y0| : ℝ)
      then (z1 - z0) / max (|trunc x1 - trunc x0| : ℝ) (|trunc y1 - trunc y0| : ℝ) else 0)
    (trunc_step x0 x1) (trunc_step y0 y1) hsx1 hsy1 (abs_nonneg _) (abs_nonneg _)
    (|trunc x1 - trunc x0| + |trunc y1 - trunc y0| + 1).toNat 0 0
    le_rfl (abs_nonneg _) le_rfl (abs_nonneg _)
    (by
      rw [Int.toNat_of_nonneg (by positivity)]
      omega)
    b z0
  simpa using h

/-- Witness for C10: the two projectable endpoints of the C7 witness triangle;
the loop flag comes back `true`. -/
theorem draw_line_terminates_witness :
    (draw_line_aux bufW40 ⟨255, 255, 255⟩ 20 12 (-5) 29.12 12 (-5)).2 = true :=
  draw_line_terminates bufW40 1 ⟨0, 0, -5⟩ ⟨1, 0, -5⟩ ⟨255, 255, 255⟩
    20 12 (-5) 29.12 12 (-5)
    (by simp only [project, bufW40]; norm_num)
    (by simp only [project, bufW40]; norm_num)

/-- **C6.** Silhouette edge selection: for each of the 12 fixed edges, the
edge is drawn exactly when the number of currently-visible (non-culled) faces
containing both of its endpoint vertex indices equals one; an edge shared by
two visible faces or by zero visible faces is not drawn. -/
theorem silhouette_edge_selection (verts : Fin 8 → Vec3) (e : Fin 12) :
    edge_drawn (visible_faces verts) e ↔
    ((visible_faces verts).countP fun fi =>
      decide ((EDGES e).1 ∈ face_vert_list fi ∧ (EDGES e).2 ∈ face_vert_list fi)) = 1 := by
  have hp : ∀ (e : Fin 12) (fi : Fin 6),
      (face_has fi (EDGES e).1 && face_has fi (EDGES e).2) =
      decide ((EDGES e).1 ∈ face_vert_list fi ∧ (EDGES e).2 ∈ face_vert_list fi) := by
    decide
  unfold edge_drawn edge_shared_count
  rw [show (fun fi => face_has fi (EDGES e).1 && face_has fi (EDGES e).2) =
      (fun fi => decide ((EDGES e).1 ∈ face_vert_list fi ∧ (EDGES e).2 ∈ face_vert_list fi))
    from funext (hp e)]

theorem length_gt_threshold (v : Vec3) (h : (1e-8 : ℝ) ^ 2 < dot v v) :
    (1e-8 : ℝ) < length v := by
  unfold length
  exact (Real.lt_sqrt (by norm_num)).mpr h

theorem face_visible_iff_raw (verts : Fin 8 → Vec3) (i : Fin 6)
    (hn : (1e-8 : ℝ) < length (face_raw_normal verts i))
    (hc : (1e-8 : ℝ) < length (scale (face_center verts i) (-1.0))) :
    (face_visible verts i ↔
      0 < dot (face_raw_normal verts i) (scale (face_center verts i) (-1.0))) := by
  unfold face_visible face_normal CubeRender.normalize
  rw [if_pos hn, if_pos hc]
  have h1 : 0 < length (face_raw_normal verts i) := lt_trans (by norm_num) hn
  have h2 : 0 < length (scale (face_center verts i) (-1.0)) := lt_trans (by norm_num) hc
  have hdot : dot (scale (face_raw_normal verts i) (1 / length (face_raw_normal verts i)))
      (scale (scale (face_center verts i) (-1.0))
        (1 / length (scale (face_center verts i) (-1.0)))) =
      (1 / length (face_raw_normal verts i)) *
        (1 / length (scale (face_center verts i) (-1.0))) *
        dot (face_raw_normal verts i) (scale (face_center verts i) (-1.0)) := by
    simp only [dot, scale]
    ring
  rw [hdot]
  have hpos : 0 < (1 / length (face_raw_normal verts i)) *
      (1 / length (scale (face_center verts i) (-1.0))) := by positivity
  constructor
  · intro h
    by_contra hd
    push_neg at hd
    nlinarith
  · intro h
    exact mul_pos hpos h

theorem face_visible_of_eval (verts : Fin 8 → Vec3) (i : Fin 6) (u c : Vec3)
    (hu : face_raw_normal verts i = u) (hc : face_center verts i = c)
    (hun : (1e-8 : ℝ) ^ 2 < dot u u)
    (hcn : (1e-8 : ℝ) < length (scale c (-1.0)))
    (hd : 0 < dot u (scale c (-1.0))) : face_visible verts i := by
  have hn : (1e-8 : ℝ) < length (face_raw_normal verts i) :=
    length_gt_threshold _ (by rw [hu]; exact hun)
  have hcl : (1e-8 : ℝ) < length (scale (face_center verts i) (-1.0)) := by
    rw [hc]
    exact hcn
  rw [face_visible_iff_raw verts i hn hcl, hu, hc]
  exact hd

theorem face_not_visible_of_eval (verts : Fin 8 → Vec3) (i : Fin 6) (u c : Vec3)
    (hu : face_raw_normal verts i = u) (hc : face_center verts i = c)
    (hun : (1e-8 : ℝ) ^ 2 < dot u u)
    (hcn : (1e-8 : ℝ) < length (scale c (-1.0)))
    (hd : dot u (scale c (-1.0)) ≤ 0) : ¬face_visible verts i := by
  have hn : (1e-8 : ℝ) < length (face_raw_normal verts i) :=
    length_gt_threshold _ (by rw [hu]; exact hun)
  have hcl : (1e-8 : ℝ) < length (scale (face_center verts i) (-1.0)) := by
    rw [hc]
    exact hcn
  rw [face_visible_iff_raw verts i hn hcl, hu, hc]
  exact not_lt.mpr hd

theorem canonical_verts_eval (i : Fin 8) :
    canonical_verts i = ⟨(CUBE_VERTS i).x, (CUBE_VERTS i).y, (CUBE_VERTS i).z - 5⟩ := by
  unfold canonical_verts transform_verts
  ext <;> simp [rot_x_apply, rot_y_apply, rot_z_apply, scale] <;> norm_num

theorem visible_count_canonical : visible_count canonical_verts = 5 := by
  have hv0 : canonical_verts 0 = ⟨-1, -1, -6⟩ := by
    rw [canonical_verts_eval, show CUBE_VERTS 0 = ⟨-1, -1, -1⟩ from rfl]
    ext <;> norm_num
  have hv1 : canonical_verts 1 = ⟨1, -1, -6⟩ := by
    rw [canonical_verts_eval, show CUBE_VERTS 1 = ⟨1, -1, -1⟩ from rfl]
    ext <;> norm_num
  have hv2 : canonical_verts 2 = ⟨1, 1, -6⟩ := by
    rw [canonical_verts_eval, show CUBE_VERTS 2 = ⟨1, 1, -1⟩ from rfl]
    ext <;> norm_num
  have hv3 : canonical_verts 3 = ⟨-1, 1, -6⟩ := by
    rw [canonical_verts_eval, show CUBE_VERTS 3 = ⟨-1, 1, -1⟩ from rfl]
    ext <;> norm_num
  have hv4 : canonical_verts 4 = ⟨-1, -1, -4⟩ := by
    rw [canonical_verts_eval, show CUBE_VERTS 4 = ⟨-1, -1, 1⟩ from rfl]
    ext <;> norm_num
  have hv5 : canonical_verts 5 = ⟨1, -1, -4⟩ := by
    rw [canonical_verts_eval, show CUBE_VERTS 5 = ⟨1, -1, 1⟩ from rfl]
    ext <;> norm_num
  have hv6 : canonical_verts 6 = ⟨1, 1, -4⟩ := by
    rw [canonical_verts_eval, show CUBE_VERTS 6 = ⟨1, 1, 1⟩ from rfl]
    ext <;> norm_num
  have hv7 : canonical_verts 7 = ⟨-1, 1, -4⟩ := by
    rw [canonical_verts_eval, show CUBE_VERTS 7 = ⟨-1, 1, 1⟩ from rfl]
    ext <;> norm_num
  have hu0 : face_raw_normal canonical_verts 0 = ⟨0, 0, 4⟩ := by
    unfold face_raw_normal
    rw [(by decide : CUBE_FACES 0 0 = (0 : Fin 8)), (by decide : CUBE_FACES 0 1 = (1 : Fin 8)),
      (by decide : CUBE_FACES 0 2 = (2 : Fin 8)), hv0, hv1, hv2]
    ext <;> norm_num [cross, sub]
  have hc0 : face_center canonical_verts 0 = ⟨0, 0, -6⟩ := by
    unfold face_center
    rw [(by decide : CUBE_FACES 0 0 = (0 : Fin 8)), (by decide : CUBE_FACES 0 1 = (1 : Fin 8)),
      (by decide : CUBE_FACES 0 2 = (2 : Fin 8)), (by decide : CUBE_FACES 0 3 = (3 : Fin 8)),
      hv0, hv1, hv2, hv3]
    ext <;> norm_num [add, scale]
  have hu1 : face_raw_normal canonical_verts 1 = ⟨0, 0, -4⟩ := by
    unfold face_raw_normal
    rw [(by decide : CUBE_FACES 1 0 = (5 : Fin 8)), (by decide : CUBE_FACES 1 1 = (4 : Fin 8)),
      (by decide : CUBE_FACES 1 2 = (7 : Fin 8)), hv5, hv4, hv7]
    ext <;> norm_num [cross, sub]
  have hc1 : face_center canonical_verts 1 = ⟨0, 0, -4⟩ := by
    unfold face_center
    rw [(by decide : CUBE_FACES 1 0 = (5 : Fin 8)), (by decide : CUBE_FACES 1 1 = (4 : Fin 8)),
      (by decide : CUBE_FACES 1 2 = (7 : Fin 8)), (by decide : CUBE_FACES 1 3 = (6 : Fin 8)),
      hv5, hv4, hv7, hv6]
    ext <;> norm_num [add, scale]
  have hu2 : face_raw_normal canonical_verts 2 = ⟨4, 0, 0⟩ := by
    unfold face_raw_normal
    rw [(by decide : CUBE_FACES 2 0 = (4 : Fin 8)), (by decide : CUBE_FACES 2 1 = (0 : Fin 8)),
      (by decide : CUBE_FACES 2 2 = (3 : Fin 8)), hv4, hv0, hv3]
    ext <;> norm_num [cross, sub]
  have hc2 : face_center canonical_verts 2 = ⟨-1, 0, -5⟩ := by
    unfold face_center
    rw [(by decide : CUBE_FACES 2 0 = (4 : Fin 8)), (by decide : CUBE_FACES 2 1 = (0 : Fin 8)),
      (by decide : CUBE_FACES 2 2 = (3 : Fin 8)), (by decide : CUBE_FACES 2 3 = (7 : Fin 8)),
      hv4, hv0, hv3, hv7]
    ext <;> norm_num [add, scale]
  have hu3 : face_raw_normal canonical_verts 3 = ⟨-4, 0, 0⟩ := by
    unfold face_raw_normal
    rw [(by decide : CUBE_FACES 3 0 = (1 : Fin 8)), (by decide : CUBE_FACES 3 1 = (5 : Fin 8)),
      (by decide : CUBE_FACES 3 2 = (6 : Fin 8)), hv1, hv5, hv6]
    ext <;> norm_num [cross, sub]
  have hc3 : face_center canonical_verts 3 = ⟨1, 0, -5⟩ := by
    unfold face_center
    rw [(by decide : CUBE_FACES 3 0 = (1 : Fin 8)), (by decide : CUBE_FACES 3 1 = (5 : Fin 8)),
      (by decide : CUBE_FACES 3 2 = (6 : Fin 8)), (by decide : CUBE_FACES 3 3 = (2 : Fin 8)),
      hv1, hv5, hv6, hv2]
    ext <;> norm_num [add, scale]
  have hu4 : face_raw_normal canonical_verts 4 = ⟨0, -4, 0⟩ := by
    unfold face_raw_normal
    rw [(by decide : CUBE_FACES 4 0 = (3 : Fin 8)), (by decide : CUBE_FACES 4 1 = (2 : Fin 8)),
      (by decide : CUBE_FACES 4 2 = (6 : Fin 8)), hv3, hv2, hv6]
    ext <;> norm_num [cross, sub]
  have hc4 : face_center canonical_verts 4 = ⟨0, 1, -5⟩ := by
    unfold face_center
    rw [(by decide : CUBE_FACES 4 0 = (3 : Fin 8)), (by decide : CUBE_FACES 4 1 = (2 : Fin 8)),
      (by decide : CUBE_FACES 4 2 = (6 : Fin 8)), (by decide : CUBE_FACES 4 3 = (7 : Fin 8)),
      hv3, hv2, hv6, hv7]
    ext <;> norm_num [add, scale]
  have hu5 : face_raw_normal canonical_verts 5 = ⟨0, 4, 0⟩ := by
    unfold face_raw_normal
    rw [(by decide : CUBE_FACES 5 0 = (4 : Fin 8)), (by decide : CUBE_FACES 5 1 = (5 : Fin 8)),
      (by decide : CUBE_FACES 5 2 = (1 : Fin 8)), hv4, hv5, hv1]
    ext <;> norm_num [cross, sub]
  have hc5 : face_center canonical_verts 5 = ⟨0, -1, -5⟩ := by
    unfold face_center
    rw [(by decide : CUBE_FACES 5 0 = (4 : Fin 8)), (by decide : CUBE_FACES 5 1 = (5 : Fin 8)),
      (by decide : CUBE_FACES 5 2 = (1 : Fin 8)), (by decide : CUBE_FACES 5 3 = (0 : Fin 8)),
      hv4, hv5, hv1, hv0]
    ext <;> norm_num [add, scale]
  have hf0 : face_visible canonical_verts 0 :=
    face_visible_of_eval _ _ _ _ hu0 hc0 (by norm_num [dot])
      (length_gt_threshold _ (by norm_num [dot, scale])) (by norm_num [dot, scale])
  have hf1 : ¬face_visible canonical_verts 1 :=
    face_not_visible_of_eval _ _ _ _ hu1 hc1 (by norm_num [dot])
      (length_gt_threshold _ (by norm_num [dot, scale])) (by norm_num [dot, scale])
  have hf2 : face_visible canonical_verts 2 :=
    face_visible_of_eval _ _ _ _ hu2 hc2 (by norm_num [dot])
      (length_gt_threshold _ (by norm_num [dot, scale])) (by norm_num [dot, scale])
  have hf3 : face_visible canonical_verts 3 :=
    face_visible_of_eval _ _ _ _ hu3 hc3 (by norm_num [dot])
      (length_gt_threshold _ (by norm_num [dot, scale])) (by norm_num [dot, scale])
  have hf4 : face_visible canonical_verts 4 :=
    face_visible_of_eval _ _ _ _ hu4 hc4 (by norm_num [dot])
      (length_gt_threshold _ (by norm_num [dot, scale])) (by norm_num [dot, scale])
  have hf5 : face_visible canonical_verts 5 :=
    face_visible_of_eval _ _ _ _ hu5 hc5 (by norm_num [dot])
      (length_gt_threshold _ (by norm_num [dot, scale])) (by norm_num [dot, scale])
  have d0 : decide (face_visible canonical_verts 0) = true := decide_eq_true hf0
  have d1 : decide (face_visible canonical_verts 1) = false := decide_eq_false hf1
  have d2 : decide (face_visible canonical_verts 2) = true := decide_eq_true hf2
  have d3 : decide (face_visible canonical_verts 3) = true := decide_eq_true hf3
  have d4 : decide (face_visible canonical_verts 4) = true := decide_eq_true hf4
  have d5 : decide (face_visible canonical_verts 5) = true := decide_eq_true hf5
  unfold visible_count visible_faces
  rw [show List.finRange 6 = [0, 1, 2, 3, 4, 5] from by decide]
  simp only [List.filter_cons, List.filter_nil, d0, d1, d2, d3, d4, d5]
  simp

/-- **C5 counterexample.** The claim says the reference cube in the canonical
orientation (all rotation angles zero, translation `z -= 5.0`) has exactly 3
of its 6 faces visible after culling.  Evaluating the code's own culling test
at that orientation shows 5 faces are retained (only face 1 — the `{5,4,7,6}`
quad — is culled), so the count is not 3. -/
theorem backface_culling_canonical_not_three :
    visible_count canonical_verts = 5 ∧ visible_count canonical_verts ≠ 3 := by
  refine ⟨visible_count_canonical, ?_⟩
  rw [visible_count_canonical]
  omega

/-- **C5 (amended).** Backface culling: a face is retained exactly when the
dot product of its computed (normalised) normal with the normalised direction
from the face centroid toward the camera (the centroid negated, i.e. the
origin minus the centroid) is strictly positive; and for the reference cube in
the canonical orientation (all three rotation angles zero, default translation
`z -= 5.0`), exactly **5** of the 6 faces are visible. -/
theorem backface_culling :
    (∀ (verts : Fin 8 → Vec3) (i : Fin 6),
      face_visible verts i ↔
        0 < dot (face_normal verts i)
          (CubeRender.normalize (sub ⟨0, 0, 0⟩ (face_center verts i)))) ∧
    visible_count canonical_verts = 5 := by
  constructor
  · intro verts i
    have h : sub ⟨0, 0, 0⟩ (face_center verts i) = scale (face_center verts i) (-1.0) := by
      ext <;> simp [sub, scale] <;> ring
    rw [h]
    exact Iff.rfl
  · exact visible_count_canonical

/-- Witness for C3 (amended) at the in-window point `(0, 0, -5)`: the
rejection characterisation instantiated concretely, and determinism discharged
at equal inputs. -/
theorem project_window_witness :
    (project bufW 0.6 ⟨0, 0, -5⟩ = none ↔ (-0.5 ≤ (-5 : ℝ) ∨ (-5 : ℝ) ≤ -100)) ∧
    project bufW 0.6 ⟨0, 0, -5⟩ = project bufW 0.6 ⟨0, 0, -5⟩ :=
  ⟨(project_window bufW 0.6 ⟨0, 0, -5⟩ ⟨0, 0, -5⟩).1,
    (project_window bufW 0.6 ⟨0, 0, -5⟩ ⟨0, 0, -5⟩).2 rfl⟩
